import Mathlib

/-!
Verification of the worker-assignment core of `Arbeitsplan_app.py`.

The Python program keeps two collections (events and workers, "Mitarbeiter"),
and a planning pass that, per event, filters date-available candidates and runs
a quota-aware greedy assignment (`assign_to_event`).  Python's `list.sort` and
`sorted` are stable; they are modelled by `sortByKey`, a stable insertion sort
on a key.  `sorted(..., reverse=True)` on a stable sort equals the stable
ascending sort on the negated key, which is how `licenseOrder` is written.
Python's `max(gen, default=0)` is modelled by `maxExp`.  The `IndexError`
raised by `assigned[0] = ...` on an empty roster is modelled by the `none`
result of `assign_to_event`.
-/

/-- A worker record, with the field names of the Python dicts
(`id`, `name`, `fuehrerscheine`, `erfahrung_level`, `verfuegbare_termine`). -/
structure Worker where
  id : String
  name : String
  fuehrerscheine : List String
  erfahrung_level : Int
  verfuegbare_termine : List String
deriving DecidableEq, Repr

/-- An event record, with the field names of the Python dicts. -/
structure Event where
  id : String
  name : String
  ort : String
  required_dates : List String
  required_mitarbeiter : Int
  anzahl_staende : Int
  mitarbeiter_pro_stand : Int
  required_fuehrerscheine : List (String × Int)
  needs_leiter : Bool
  prioritaet : String
deriving DecidableEq, Repr

/-- `matches_license` from the source: the sentinel "none" matches everyone,
"B" matches holders of "B" or "BE", "BE" matches holders of "BE", anything
else matches nobody. -/
def matches_license (fuehrerscheine : List String) (req_class : String) : Bool :=
  if req_class = "none" then true
  else if req_class = "B" then fuehrerscheine.contains "B" || fuehrerscheine.contains "BE"
  else if req_class = "BE" then fuehrerscheine.contains "BE"
  else false

/-- The ordering relation of a keyed sort: compare the keys. -/
def keyLe {α β : Type} [LinearOrder β] (key : α → β) : α → α → Prop :=
  fun a b => key a ≤ key b

instance keyLeDecidable {α β : Type} [LinearOrder β] (key : α → β) :
    DecidableRel (keyLe key) :=
  fun a b => inferInstanceAs (Decidable (key a ≤ key b))

instance keyLeTotal {α β : Type} [LinearOrder β] (key : α → β) :
    IsTotal α (keyLe key) :=
  ⟨fun a b => le_total (key a) (key b)⟩

instance keyLeTrans {α β : Type} [LinearOrder β] (key : α → β) :
    IsTrans α (keyLe key) :=
  ⟨fun _ _ _ hab hbc => le_trans hab hbc⟩

/-- Stable sort by a key, ascending: the model of Python's stable
`list.sort(key=...)` / `sorted(..., key=...)`. -/
def sortByKey {α β : Type} [LinearOrder β] (key : α → β) (l : List α) : List α :=
  List.insertionSort (keyLe key) l

/-- Python's `sorted` returns a permutation of its input. -/
theorem sortByKey_perm {α β : Type} [LinearOrder β] (key : α → β) (l : List α) :
    List.Perm (sortByKey key l) l :=
  List.perm_insertionSort (keyLe key) l

theorem sortByKey_sorted {α β : Type} [LinearOrder β] (key : α → β) (l : List α) :
    (sortByKey key l).Sorted (keyLe key) :=
  List.sorted_insertionSort (keyLe key) l

theorem mem_sortByKey {α β : Type} [LinearOrder β] {key : α → β} {l : List α} {x : α} :
    x ∈ sortByKey key l ↔ x ∈ l :=
  List.mem_insertionSort (keyLe key)

theorem sortByKey_length {α β : Type} [LinearOrder β] (key : α → β) (l : List α) :
    (sortByKey key l).length = l.length :=
  List.length_insertionSort (keyLe key) l

/-- The quota value of a class: Python's `quota.get(lic, 0)`. -/
def lookupDict (d : List (String × Int)) (k : String) : Int :=
  match d.find? (fun p => p.1 == k) with
  | some p => p.2
  | none => 0

/-- The rank the source gives a credential class when ordering the quota keys:
`0 if x == "none" else 1 if x == "B" else 2`. -/
def licenseRank (x : String) : Int :=
  if x = "none" then 0 else if x = "B" then 1 else 2

/-- The processing order of the quota classes:
`sorted(quota.keys(), key=rank, reverse=True)`, a stable descending sort,
modelled as the stable ascending sort on the negated rank. -/
def licenseOrder (quota : List (String × Int)) : List String :=
  sortByKey (fun x => -licenseRank x) (quota.map Prod.fst)

/-- The sort key of the candidate sorts: Python's `key=lambda m: -m["erfahrung_level"]`. -/
def negExp (m : Worker) : Int := -m.erfahrung_level

/-- The sort key of the final roster sort: Python's `key=lambda m: m["erfahrung_level"]`. -/
def expKey (m : Worker) : Int := m.erfahrung_level

/-- One move of the quota loop body: `assigned.append(sel); remaining.remove(sel)`.
`List.erase` removes the first occurrence, as Python's `remove` does. -/
def moveWorker (ar : List Worker × List Worker) (sel : Worker) : List Worker × List Worker :=
  (ar.1 ++ [sel], ar.2.erase sel)

/-- One iteration of the quota loop (`for lic in license_order`): skip classes
with quota <= 0, otherwise move the `needed` most experienced matching workers
(stable sort, pop from the front) from remaining into assigned. -/
def quotaStep (quota : List (String × Int)) (ar : List Worker × List Worker)
    (lic : String) : List Worker × List Worker :=
  let needed := lookupDict quota lic
  if needed ≤ 0 then ar
  else
    ((sortByKey negExp (ar.2.filter
      (fun m => matches_license m.fuehrerscheine lic))).take needed.toNat).foldl moveWorker ar

/-- The whole quota pass of `assign_to_event` (lines 79-93 of the source):
returns the pair (assigned, remaining). -/
def quotaPass (candidates : List Worker) (quota : List (String × Int)) :
    List Worker × List Worker :=
  (licenseOrder quota).foldl (quotaStep quota) ([], candidates)

/-- The fill pass (lines 95-98): top up `assigned` from the remaining pool,
most experienced first, until `effective_required` is reached. -/
def fillPass (eff : Int) (ar : List Worker × List Worker) : List Worker :=
  let still_needed : Int := eff - (ar.1.length : Int)
  if 0 < still_needed then ar.1 ++ (sortByKey negExp ar.2).take still_needed.toNat
  else ar.1

/-- The failure taxonomy of `assign_to_event`, each constructor carrying the
numbers interpolated into the source's message string (see `errMessage`). -/
inductive AssignError where
  | insufficient (avail : Nat) (need : Int)
  | quotaUnmet (got : Nat) (need : Int)
  | noLeader
deriving DecidableEq, Repr

/-- The German message strings the source returns for each failure. -/
def errMessage : AssignError → String
  | .insufficient n r => "Nur " ++ toString n ++ " Kandidaten verfügbar (brauche " ++ toString r ++ ")"
  | .quotaUnmet g r => "Nur " ++ toString g ++ " von " ++ toString r ++ " zugewiesen"
  | .noLeader => "Kein Eventleiter verfügbar"

/-- Python's `max((m["erfahrung_level"] for m in assigned), default=0)`. -/
def maxExp (assigned : List Worker) : Int :=
  match assigned with
  | [] => 0
  | m :: rest => rest.foldl (fun acc x => max acc x.erfahrung_level) m.erfahrung_level

/-- `assign_to_event` from the source (lines 70-111).  `some (.ok roster)` is a
successful assignment, `some (.error e)` one of the three failure returns, and
`none` the `IndexError` raised by `assigned[0] = leiter_avail[0]` when
`assigned` is empty. -/
def assign_to_event (candidates : List Worker) (required_fuehrerscheine : List (String × Int))
    (effective_required : Int) (needs_leiter : Bool) :
    Option (Except AssignError (List Worker)) :=
  if (candidates.length : Int) < effective_required then
    some (.error (.insufficient candidates.length effective_required))
  else
    let assigned := fillPass effective_required (quotaPass candidates required_fuehrerscheine)
    if (assigned.length : Int) < effective_required then
      some (.error (.quotaUnmet assigned.length effective_required))
    else if needs_leiter && decide (maxExp assigned < 2) then
      match candidates.filter
          (fun m => decide (2 ≤ m.erfahrung_level) && !(assigned.contains m)) with
      | [] => some (.error .noLeader)
      | l :: _ =>
        match sortByKey expKey assigned with
        | [] => none
        | _ :: rest => some (.ok (l :: rest))
    else some (.ok assigned)

/-- `effective_required` as the driver computes it (lines 143-146). -/
def effReq (e : Event) : Int :=
  max e.required_mitarbeiter (e.anzahl_staende * e.mitarbeiter_pro_stand)

/-- The per-event candidate filter of the driver (lines 139-142): keep workers
none of whose claimed dates intersects the event's required dates. -/
def filterCandidates (workers : List Worker) (used : String → List String)
    (dates : List String) : List Worker :=
  workers.filter (fun m => dates.all (fun d => !(used m.id).contains d))

/-- Date-claim propagation (lines 163-165): add every required date of the
event to the claimed set of every assigned worker.  The Python sets are
modelled by lists up to membership. -/
def claimDates (used : String → List String) (assigned : List Worker)
    (dates : List String) : String → List String :=
  fun i => if assigned.any (fun m => m.id == i) then used i ++ dates else used i

/-- The sort key of the event ordering:
`e["required_dates"][0] if e["required_dates"] else ""`.  Python compares
strings lexicographically by code point, which is the lexicographic order on
the underlying character lists, so the key is taken as `String.data`. -/
def eventKey (e : Event) : List Char :=
  (e.required_dates.headD "").data

/-- The event ordering of the driver (line 136). -/
def sortedEvents (events : List Event) : List Event :=
  sortByKey eventKey events

/-- One iteration of the planning loop (lines 138-165), threading the claimed
dates and appending this event's outcome to the trace; `none` propagates a
crash of `assign_to_event`. -/
def planStep (workers : List Worker)
    (st : (String → List String) × List (Event × Except AssignError (List Worker)))
    (event : Event) :
    Option ((String → List String) × List (Event × Except AssignError (List Worker))) :=
  let candidates := filterCandidates workers st.1 event.required_dates
  match assign_to_event candidates event.required_fuehrerscheine (effReq event)
      event.needs_leiter with
  | none => none
  | some (.error err) => some (st.1, st.2 ++ [(event, .error err)])
  | some (.ok assigned) =>
      some (claimDates st.1 assigned event.required_dates, st.2 ++ [(event, .ok assigned)])

/-- The planning pass (lines 132-165), as the per-event trace in processing
order.  `worker_used_dates` starts empty for every worker. -/
def runPlan (events : List Event) (workers : List Worker) :
    Option (List (Event × Except AssignError (List Worker))) :=
  ((sortedEvents events).foldlM (planStep workers) (fun _ => ([] : List String), [])).map
    Prod.snd

/-- A value of the `plan` dict of the source: either
`{"status": "FEHLER", "grund": ...}` or `{"status": "OK", "mitarbeiter": names, "anzahl": n}`. -/
inductive PlanEntry where
  | fehler (grund : String)
  | ok (mitarbeiter : List String) (anzahl : Nat)
deriving DecidableEq, Repr

/-- The entry the driver records for one event's outcome (lines 155-162). -/
def entryOf : Except AssignError (List Worker) → PlanEntry
  | .error e => .fehler (errMessage e)
  | .ok assigned => .ok (assigned.map Worker.name) assigned.length

/-- Python dict assignment `d[k] = v`: replace in place if the key exists,
append otherwise. -/
def dictSet {V : Type} (d : List (String × V)) (k : String) (v : V) :
    List (String × V) :=
  if d.any (fun p => p.1 == k) then d.map (fun p => if p.1 == k then (k, v) else p)
  else d ++ [(k, v)]

/-- The `plan` dict of the source, built from the trace: `plan[event["id"]] = ...`
per processed event. -/
def computePlan (events : List Event) (workers : List Worker) :
    Option (List (String × PlanEntry)) :=
  (runPlan events workers).map
    (fun trace => trace.foldl (fun plan p => dictSet plan p.1.id (entryOf p.2)) [])

/-! ### Sample records used by the concrete theorems -/

/-- A BE holder with experience level 1. -/
def wBE1 : Worker := ⟨"m1", "A", ["BE"], 1, []⟩

/-- A second BE holder with experience level 1. -/
def wBE1b : Worker := ⟨"m2", "B", ["BE"], 1, []⟩

/-- A leader-eligible worker (level 2) without credentials. -/
def wL2 : Worker := ⟨"m3", "C", [], 2, []⟩

/-- A leader-eligible worker (level 3) without credentials. -/
def wL3 : Worker := ⟨"m4", "D", [], 3, []⟩

/-- A plain worker, level 1, no credentials. -/
def wP1 : Worker := ⟨"m5", "E", [], 1, []⟩

/-- A second plain worker, level 1, no credentials. -/
def wP1b : Worker := ⟨"m6", "F", [], 1, []⟩

/-- An event with `effective_required = 0` that still requires a leader. -/
def eZero : Event := ⟨"e0", "Z", "O", ["2024-06-01"], 0, 0, 2, [("BE", 0), ("B", 0), ("none", 0)], true, "1"⟩

/-- An event on 2024-06-01 needing two workers. -/
def eA : Event := ⟨"eA", "A", "O", ["2024-06-01"], 2, 0, 0, [], false, "1"⟩

/-- An event on 2024-06-01 needing one worker. -/
def eB : Event := ⟨"eB", "B", "O", ["2024-06-01"], 1, 0, 0, [], false, "1"⟩

/-- A dated event whose first required date is the empty string. -/
def eEmptyStr : Event := ⟨"eS", "S", "O", [""], 1, 0, 0, [], false, "1"⟩

/-- An event with no required dates. -/
def eNoDates : Event := ⟨"eN", "N", "O", [], 1, 0, 0, [], false, "1"⟩

/-! ### C5: the credential-matching predicate -/

/-- C5: for every held credential list, `matches_license` accepts the sentinel
"none", accepts "B" exactly for holders of "B" or "BE", accepts "BE" exactly
for holders of "BE", and rejects every other required class.  As a Lean
function it is pure by construction. -/
theorem matches_license_spec (f : List String) (c : String) :
    matches_license f "none" = true ∧
    (matches_license f "B" = true ↔ ("B" ∈ f ∨ "BE" ∈ f)) ∧
    (matches_license f "BE" = true ↔ "BE" ∈ f) ∧
    (c ≠ "none" → c ≠ "B" → c ≠ "BE" → matches_license f c = false) := by
  refine ⟨rfl, ?_, ?_, ?_⟩
  · simp [matches_license]
  · simp [matches_license]
  · intro h1 h2 h3
    simp [matches_license, h1, h2, h3]

/-- Witness for C5 at a concrete held set and a concrete unknown class. -/
theorem matches_license_spec_witness : matches_license ["B"] "C1E" = false :=
  (matches_license_spec ["B"] "C1E").2.2.2 (by decide) (by decide) (by decide)

/-! ### C10: leader substitution is not rechecked against the quota -/

/-- C10: with candidates `[wBE1, wBE1b, wL2]`, quota `{BE: 2}`,
`effective_required = 2` and `needs_leiter` set, the quota pass fills the BE
quota with both BE holders, and the leader substitution then replaces one of
them by the credential-less leader `wL2`: the result is a success whose roster
holds only one BE holder, although two matching candidates existed. -/
theorem leader_substitution_breaks_quota :
    assign_to_event [wBE1, wBE1b, wL2] [("BE", 2)] 2 true = some (.ok [wL2, wBE1b]) ∧
    ((([wL2, wBE1b] : List Worker).filter
        (fun m => matches_license m.fuehrerscheine "BE")).length : Int) <
      lookupDict [("BE", 2)] "BE" ∧
    (([wBE1, wBE1b, wL2] : List Worker).filter
        (fun m => matches_license m.fuehrerscheine "BE")).length = 2 :=
  ⟨by rfl, by decide, by rfl⟩

/-! ### C1: quota conservation -/

/-- Counterexample to C1 as stated: with quota `{BE: 2}` and
`effective_required = 1`, the quota pass moves both BE holders, so the
successful roster has 2 workers, more than `effective_required`. -/
theorem quota_overfill_counterexample :
    assign_to_event [wBE1, wBE1b] [("BE", 2)] 1 false = some (.ok [wBE1, wBE1b]) ∧
    (([wBE1, wBE1b] : List Worker).length : Int) ≠ 1 :=
  ⟨by rfl, by decide⟩

/-! ### C3: the planning pass can crash -/

/-- Counterexample to C3 as stated: an event with `effective_required = 0`
that needs a leader, against a pool holding a leader-eligible worker, makes
`assigned[0] = leiter_avail[0]` raise `IndexError` on the empty roster, so the
whole plan computation aborts (modelled by `none`). -/
theorem plan_crash_counterexample : computePlan [eZero] [wL2] = none := by rfl

/-! ### C8: event ordering -/

/-- Counterexample to C8 as stated: a dated event whose first date is the
empty string receives the same sort key as an empty-dates event, so the stable
sort keeps the dated event first and the empty-dates event does not sort
before all dated events. -/
theorem event_sort_counterexample :
    sortedEvents [eEmptyStr, eNoDates] = [eEmptyStr, eNoDates] ∧
    eEmptyStr.required_dates ≠ [] ∧ eNoDates.required_dates = [] :=
  ⟨by decide, by decide, rfl⟩

/-! ### C9: monotonicity of scarcity -/

/-- Counterexample to C9 as stated: with two same-day events (`eA` needs 2,
`eB` needs 1) and pool `[wP1, wP1b]`, event `eB` fails; removing `wP1` makes
`eA` fail instead of consuming the pool, and `eB` flips from Failure to
Success. -/
theorem remove_worker_flips_failure_counterexample :
    ([wP1, wP1b] : List Worker).erase wP1 = [wP1b] ∧
    computePlan [eA, eB] [wP1, wP1b] =
      some [("eA", .ok ["E", "F"] 2),
            ("eB", .fehler "Nur 0 Kandidaten verfügbar (brauche 1)")] ∧
    computePlan [eA, eB] [wP1b] =
      some [("eA", .fehler "Nur 1 Kandidaten verfügbar (brauche 2)"),
            ("eB", .ok ["F"] 1)] :=
  ⟨by rfl, by decide, by decide⟩

/-! ### C2: leader substitution picks the first eligible candidate, not the best -/

/-- Counterexample to C2 as stated: candidates `[wL2, wL3, wBE1]`, quota
`{BE: 1}`, `effective_required = 1`, `needs_leiter` set.  The quota pass
assigns the BE holder; both `wL2` (level 2) and `wL3` (level 3) are eligible
leaders outside the roster, and the source substitutes `leiter_avail[0]`, the
first one in candidate order (`wL2`), not the most experienced one (`wL3`). -/
theorem leader_pick_not_best_counterexample :
    assign_to_event [wL2, wL3, wBE1] [("BE", 1)] 1 true = some (.ok [wL2]) ∧
    wL3 ∈ ([wL2, wL3, wBE1] : List Worker) ∧
    2 ≤ wL3.erfahrung_level ∧
    wL2.erfahrung_level < wL3.erfahrung_level ∧
    wL3 ∉ ([wL2] : List Worker) :=
  ⟨by rfl, by decide, by decide, by decide, by decide⟩

/-! ### Length bookkeeping of the quota and fill passes -/

/-- The inner quota loop appends exactly the selected workers to `assigned`. -/
theorem foldl_moveWorker_fst : ∀ (ts : List Worker) (ar : List Worker × List Worker),
    (ts.foldl moveWorker ar).1 = ar.1 ++ ts
  | [], ar => by simp
  | s :: ts, ar => by
    simp [List.foldl_cons, foldl_moveWorker_fst ts, moveWorker]

/-- The inner quota loop erases exactly the selected workers from `remaining`. -/
theorem foldl_moveWorker_snd : ∀ (ts : List Worker) (ar : List Worker × List Worker),
    (ts.foldl moveWorker ar).2 = ts.foldl (fun r s => r.erase s) ar.2
  | [], _ => rfl
  | s :: ts, ar => by
    simp [List.foldl_cons, foldl_moveWorker_snd ts, moveWorker]

/-- Erasing, one by one, a sub-multiset of a list removes exactly its length. -/
theorem length_foldl_erase : ∀ (ts l : List Worker), List.Subperm ts l →
    (ts.foldl (fun r s => r.erase s) l).length + ts.length = l.length
  | [], l, _ => by simp
  | s :: ts, l, h => by
    have hmem : s ∈ l := h.subset (List.mem_cons_self s ts)
    have hsub : List.Subperm ts (l.erase s) := by
      have h2 : List.Subperm (s :: ts) (s :: l.erase s) :=
        h.trans (List.perm_cons_erase hmem).subperm
      exact (List.subperm_cons s).mp h2
    have ih := length_foldl_erase ts (l.erase s) hsub
    have hlen : (l.erase s).length = l.length - 1 := List.length_erase_of_mem hmem
    have hpos : 1 ≤ l.length := List.length_pos.mpr (List.ne_nil_of_mem hmem)
    simp only [List.foldl_cons, List.length_cons]
    omega

/-- An erase-fold only removes elements. -/
theorem foldl_erase_subset : ∀ (ts l : List Worker),
    (ts.foldl (fun r s => r.erase s) l) ⊆ l
  | [], _ => fun _ h => h
  | s :: ts, l => by
    intro x hx
    exact List.erase_subset s l (foldl_erase_subset ts (l.erase s) hx)

/-- The workers selected for one credential class are a sub-multiset of the
remaining pool. -/
theorem taken_subperm (rem : List Worker) (p : Worker → Bool) (n : Nat) :
    List.Subperm ((sortByKey negExp (rem.filter p)).take n) rem :=
  ((List.take_sublist n _).subperm.trans
    (sortByKey_perm negExp (rem.filter p)).subperm).trans
    (rem.filter_sublist).subperm

/-- One quota-loop iteration conserves the total number of workers. -/
theorem quotaStep_length (quota : List (String × Int)) (ar : List Worker × List Worker)
    (lic : String) :
    (quotaStep quota ar lic).1.length + (quotaStep quota ar lic).2.length =
      ar.1.length + ar.2.length := by
  simp only [quotaStep]
  split
  · rfl
  · set taken := (sortByKey negExp (ar.2.filter
      (fun m => matches_license m.fuehrerscheine lic))).take (lookupDict quota lic).toNat with ht
    have h1 := foldl_moveWorker_fst taken ar
    have h2 := foldl_moveWorker_snd taken ar
    have h3 := length_foldl_erase taken ar.2 (taken_subperm ar.2 _ _)
    rw [h1, h2, List.length_append]
    omega

/-- The quota pass conserves workers: `assigned` and `remaining` partition the
candidates by count. -/
theorem quotaPass_length (candidates : List Worker) (quota : List (String × Int)) :
    (quotaPass candidates quota).1.length + (quotaPass candidates quota).2.length =
      candidates.length := by
  suffices h : ∀ (lics : List String) (ar : List Worker × List Worker),
      ((lics.foldl (quotaStep quota) ar).1.length + (lics.foldl (quotaStep quota) ar).2.length =
        ar.1.length + ar.2.length) by
    simpa [quotaPass] using h (licenseOrder quota) ([], candidates)
  intro lics
  induction lics with
  | nil => intro ar; rfl
  | cons lic rest ih =>
    intro ar
    rw [List.foldl_cons, ih (quotaStep quota ar lic), quotaStep_length]

/-- One quota-loop iteration grows `assigned` by at most the class's quota. -/
theorem quotaStep_fst_length_le (quota : List (String × Int)) (ar : List Worker × List Worker)
    (lic : String) :
    (quotaStep quota ar lic).1.length ≤ ar.1.length + (lookupDict quota lic).toNat := by
  simp only [quotaStep]
  split
  · simp
  · rw [foldl_moveWorker_fst, List.length_append]
    have := List.length_take_le (lookupDict quota lic).toNat
      (sortByKey negExp (ar.2.filter (fun m => matches_license m.fuehrerscheine lic)))
    omega

/-- The number of positive quota slots, summed over the quota dict. -/
def posTotal (quota : List (String × Int)) : Nat :=
  (quota.map (fun p => p.2.toNat)).sum

/-- With distinct keys, looking every key up in the dict returns the values. -/
theorem map_lookupDict_keys : ∀ (q : List (String × Int)),
    (q.map Prod.fst).Nodup → (q.map Prod.fst).map (lookupDict q) = q.map Prod.snd
  | [], _ => rfl
  | (k, v) :: rest, hnd => by
    simp only [List.map_cons, List.nodup_cons] at hnd ⊢
    have hk : lookupDict ((k, v) :: rest) k = v := by simp [lookupDict]
    rw [hk]
    have hrest : (rest.map Prod.fst).map (lookupDict rest) = rest.map Prod.snd :=
      map_lookupDict_keys rest hnd.2
    rw [← hrest]
    congr 1
    apply List.map_congr_left
    intro a ha
    have hne : ¬ (k == a) = true := by
      simp only [beq_iff_eq]
      intro hkk
      exact hnd.1 (hkk ▸ ha)
    simp [lookupDict, List.find?, hne]

/-- Over the whole quota pass, `assigned` grows to at most the sum of the
positive quota values (distinct keys). -/
theorem quotaPass_fst_length_le (candidates : List Worker) (quota : List (String × Int))
    (hnd : (quota.map Prod.fst).Nodup) :
    (quotaPass candidates quota).1.length ≤ posTotal quota := by
  have hfold : ∀ (lics : List String) (ar : List Worker × List Worker),
      (lics.foldl (quotaStep quota) ar).1.length ≤
        ar.1.length + (lics.map (fun lic => (lookupDict quota lic).toNat)).sum := by
    intro lics
    induction lics with
    | nil => intro ar; simp
    | cons lic rest ih =>
      intro ar
      rw [List.foldl_cons, List.map_cons, List.sum_cons]
      calc (rest.foldl (quotaStep quota) (quotaStep quota ar lic)).1.length
          ≤ (quotaStep quota ar lic).1.length +
            (rest.map (fun lic => (lookupDict quota lic).toNat)).sum := ih _
        _ ≤ ar.1.length + (lookupDict quota lic).toNat +
            (rest.map (fun lic => (lookupDict quota lic).toNat)).sum := by
              have := quotaStep_fst_length_le quota ar lic
              omega
        _ = ar.1.length + ((lookupDict quota lic).toNat +
            (rest.map (fun lic => (lookupDict quota lic).toNat)).sum) := by omega
  have hperm : List.Perm (licenseOrder quota) (quota.map Prod.fst) :=
    sortByKey_perm _ _
  have hsum : ((licenseOrder quota).map (fun lic => (lookupDict quota lic).toNat)).sum =
      posTotal quota := by
    rw [List.Perm.sum_eq (hperm.map _)]
    calc ((quota.map Prod.fst).map (fun lic => (lookupDict quota lic).toNat)).sum
        = (((quota.map Prod.fst).map (lookupDict quota)).map Int.toNat).sum := by
          simp only [List.map_map]
          rfl
      _ = ((quota.map Prod.snd).map Int.toNat).sum := by
          rw [map_lookupDict_keys quota hnd]
      _ = posTotal quota := by
          rw [posTotal, List.map_map]
          rfl
  have := hfold (licenseOrder quota) ([], candidates)
  simpa [quotaPass, hsum] using this

/-- If enough candidates remain, the fill pass reaches `effective_required`. -/
theorem fillPass_length_ge (eff : Int) (ar : List Worker × List Worker)
    (h : eff ≤ ((ar.1.length + ar.2.length : Nat) : Int)) :
    eff ≤ ((fillPass eff ar).length : Int) := by
  simp only [fillPass]
  split
  · rw [List.length_append, List.length_take, sortByKey_length]
    omega
  · omega

/-- If the quota pass stayed at or below `effective_required` and enough
candidates exist, the fill pass tops up to exactly `effective_required`. -/
theorem fillPass_length_eq (eff : Int) (ar : List Worker × List Worker)
    (h1 : (ar.1.length : Int) ≤ eff)
    (h2 : eff ≤ ((ar.1.length + ar.2.length : Nat) : Int)) :
    ((fillPass eff ar).length : Int) = eff := by
  simp only [fillPass]
  split
  · rw [List.length_append, List.length_take, sortByKey_length]
    omega
  · omega

/-! ### C6: the "quota unmet" branch is unreachable past the feasibility check -/

/-- C6: whenever the initial feasibility check passes
(`len(candidates) >= effective_required`), `assign_to_event` never returns the
QuotaUnmet failure: the fill pass always reaches `effective_required`. -/
theorem no_quota_unmet (candidates : List Worker) (quota : List (String × Int))
    (eff : Int) (nl : Bool) (h : ¬ ((candidates.length : Int) < eff))
    (g : Nat) (n : Int) :
    assign_to_event candidates quota eff nl ≠ some (.error (.quotaUnmet g n)) := by
  have hge : eff ≤ ((fillPass eff (quotaPass candidates quota)).length : Int) := by
    apply fillPass_length_ge
    rw [quotaPass_length]
    omega
  simp only [assign_to_event, if_neg h]
  rw [if_neg (by omega)]
  split
  · split
    · exact fun hc => AssignError.noConfusion (Except.error.inj (Option.some.inj hc))
    · split
      · exact fun hc => Option.noConfusion hc
      · exact fun hc => Except.noConfusion (Option.some.inj hc)
  · exact fun hc => Except.noConfusion (Option.some.inj hc)

/-- Witness for C6 at a concrete feasible input. -/
theorem no_quota_unmet_witness :
    assign_to_event [wP1] [] 1 false ≠ some (.error (.quotaUnmet 0 1)) :=
  no_quota_unmet [wP1] [] 1 false (by decide) 0 1

/-! ### C1 (amended): roster size bounds -/

/-- C1 as amended: a successful `assign_to_event` roster has at least
`effective_required` workers, and exactly `effective_required` whenever the
positive quota slots sum to at most `effective_required` (the original claim's
"exactly, never more" fails when the quota total exceeds it, see
`quota_overfill_counterexample`). -/
theorem assign_ok_length (candidates : List Worker) (quota : List (String × Int))
    (eff : Int) (nl : Bool) (r : List Worker)
    (hnd : (quota.map Prod.fst).Nodup)
    (hok : assign_to_event candidates quota eff nl = some (.ok r)) :
    eff ≤ (r.length : Int) ∧ ((posTotal quota : Int) ≤ eff → (r.length : Int) = eff) := by
  by_cases hfeas : (candidates.length : Int) < eff
  · rw [assign_to_event, if_pos hfeas] at hok
    exact absurd (Option.some.inj hok) (by simp)
  · simp only [assign_to_event, if_neg hfeas] at hok
    by_cases hlen : ((fillPass eff (quotaPass candidates quota)).length : Int) < eff
    · rw [if_pos hlen] at hok
      exact absurd (Option.some.inj hok) (by simp)
    · rw [if_neg hlen] at hok
      have hrlen : r.length = (fillPass eff (quotaPass candidates quota)).length := by
        split at hok
        · split at hok
          · exact absurd (Option.some.inj hok) (by simp)
          · split at hok
            · exact Option.noConfusion hok
            · rename_i heq
              have hok2 := Except.ok.inj (Option.some.inj hok)
              rw [← hok2, List.length_cons]
              have hlen2 := congrArg List.length heq
              rw [sortByKey_length] at hlen2
              rw [hlen2, List.length_cons]
        · have := Except.ok.inj (Option.some.inj hok)
          rw [← this]
      constructor
      · rw [hrlen]
        omega
      · intro hq
        have hb := quotaPass_fst_length_le candidates quota hnd
        have heq : ((fillPass eff (quotaPass candidates quota)).length : Int) = eff := by
          apply fillPass_length_eq
          · omega
          · rw [quotaPass_length]
            omega
        rw [hrlen]
        exact heq

/-- Witness for the amended C1 at a concrete input. -/
theorem assign_ok_length_witness :
    (1 : Int) ≤ (([wP1] : List Worker).length : Int) ∧
    ((posTotal [] : Int) ≤ 1 → (([wP1] : List Worker).length : Int) = 1) :=
  assign_ok_length [wP1] [] 1 false [wP1] (by decide) (by rfl)

/-! ### Stability of the keyed sort -/

/-- Inserting an element into a sorted list places it before every element of
equal key, so filtering with a predicate that only selects one key class
commutes with the insertion. -/
theorem filter_orderedInsert_keyConst {α β : Type} [LinearOrder β] (key : α → β)
    (p : α → Bool) (hp : ∀ x y, p x = true → p y = true → key x = key y) (a : α) :
    ∀ l : List α, (List.orderedInsert (keyLe key) a l).filter p =
      if p a then a :: l.filter p else l.filter p
  | [] => by
    by_cases h : p a <;> simp [List.orderedInsert, h]
  | b :: l => by
    rw [List.orderedInsert]
    by_cases hab : keyLe key a b
    · rw [if_pos hab]
      by_cases h : p a <;> simp [List.filter_cons, h]
    · rw [if_neg hab]
      have hba : key b < key a := not_le.mp hab
      have hrec := filter_orderedInsert_keyConst key p hp a l
      by_cases hbp : p b
      · have hap : ¬ p a = true := by
          intro hk
          rw [hp a b hk hbp] at hba
          exact lt_irrefl _ hba
        simp [List.filter_cons, hbp, hap, hrec]
      · by_cases h : p a <;> simp [List.filter_cons, hbp, h, hrec]

/-- Stability of `sortByKey`, as Python guarantees for its sorts: filtering
any single key class gives the same list before and after sorting. -/
theorem sortByKey_filter_keyConst {α β : Type} [LinearOrder β] (key : α → β)
    (p : α → Bool) (hp : ∀ x y, p x = true → p y = true → key x = key y) :
    ∀ l : List α, (sortByKey key l).filter p = l.filter p
  | [] => rfl
  | a :: l => by
    have hrec := sortByKey_filter_keyConst key p hp l
    simp only [sortByKey, List.insertionSort] at hrec ⊢
    rw [filter_orderedInsert_keyConst key p hp]
    by_cases h : p a <;> simp [List.filter_cons, h, hrec]

/-- The empty character list is minimal in the lexicographic order. -/
theorem listChar_nil_le (l : List Char) : ([] : List Char) ≤ l := by
  cases l with
  | nil => exact le_refl _
  | cons c cs => exact le_of_lt (List.nil_lt_cons c cs)

/-- Only the empty character list is at most the empty character list. -/
theorem listChar_le_nil {l : List Char} (h : l ≤ ([] : List Char)) : l = [] :=
  le_antisymm h (listChar_nil_le l)

/-! ### C8 (amended): the event ordering -/

/-- C8 as amended: the driver's event ordering is the stable ascending sort on
the key "first element of `required_dates`, or the empty-string sentinel": the
output is a permutation of the input, sorted by that key, every key class
keeps its input order (stability), and every event placed before an
empty-dates event carries the empty key itself.  Hence empty-dates events sort
before all events whose first date is a nonempty string; a dated event whose
first date is the empty string ties with them instead of sorting after them
(see `event_sort_counterexample`). -/
theorem sortedEvents_spec (events : List Event) :
    List.Perm (sortedEvents events) events ∧
    (sortedEvents events).Sorted (keyLe eventKey) ∧
    (∀ k : List Char, (sortedEvents events).filter (fun e => decide (eventKey e = k)) =
        events.filter (fun e => decide (eventKey e = k))) ∧
    (sortedEvents events).Pairwise (fun a b => b.required_dates = [] → eventKey a = []) := by
  refine ⟨sortByKey_perm _ _, sortByKey_sorted _ _, fun k => ?_, ?_⟩
  · apply sortByKey_filter_keyConst
    intro x y hx hy
    rw [of_decide_eq_true hx, of_decide_eq_true hy]
  · have hs : (sortedEvents events).Pairwise (keyLe eventKey) := sortByKey_sorted _ _
    apply List.Pairwise.imp ?_ hs
    intro a b hab
    intro hbe
    have hab2 : eventKey a ≤ eventKey b := hab
    have hb : eventKey b = [] := by simp [eventKey, hbe]
    rw [hb] at hab2
    exact listChar_le_nil hab2

/-! ### C4: the quota pass -/

/-- The canonical class order the spec states: "BE" before "B" before "none". -/
def canonicalOrder : List String := ["BE", "B", "none"]

/-- The source's generic rank sort produces exactly the spec's fixed order
when the quota keys are (distinct) known classes. -/
theorem licenseOrder_fixed (quota : List (String × Int))
    (hnd : (quota.map Prod.fst).Nodup)
    (hsub : ∀ k ∈ quota.map Prod.fst, k ∈ canonicalOrder) :
    licenseOrder quota =
      canonicalOrder.filter (fun k => decide (k ∈ quota.map Prod.fst)) := by
  have hrank : ∀ a ∈ canonicalOrder, ∀ b ∈ canonicalOrder,
      licenseRank a = licenseRank b → a = b := by decide
  have hanti : IsAntisymm String (fun a b => -licenseRank a < -licenseRank b) :=
    ⟨fun a b h1 h2 => absurd (lt_trans h1 h2) (lt_irrefl _)⟩
  have hperm1 : List.Perm (licenseOrder quota) (quota.map Prod.fst) := sortByKey_perm _ _
  have hnd1 : (licenseOrder quota).Nodup := hperm1.nodup_iff.mpr hnd
  have hsort1le : (licenseOrder quota).Pairwise (keyLe (fun x => -licenseRank x)) :=
    sortByKey_sorted _ _
  have hsort1 : (licenseOrder quota).Pairwise (fun a b => -licenseRank a < -licenseRank b) := by
    apply List.Pairwise.imp_of_mem ?_ (hsort1le.and hnd1)
    intro a b ha hb h
    obtain ⟨hle, hne⟩ := h
    have hle2 : -licenseRank a ≤ -licenseRank b := hle
    rcases lt_or_eq_of_le hle2 with hlt | heq
    · exact hlt
    · exact absurd (hrank a (hsub a (hperm1.subset ha)) b (hsub b (hperm1.subset hb))
        (neg_inj.mp heq)) hne
  have hcanonnd : canonicalOrder.Nodup := by decide
  have hcanonsorted : canonicalOrder.Pairwise (fun a b => -licenseRank a < -licenseRank b) := by
    decide
  have hsort2 : (canonicalOrder.filter (fun k => decide (k ∈ quota.map Prod.fst))).Pairwise
      (fun a b => -licenseRank a < -licenseRank b) :=
    hcanonsorted.sublist (List.filter_sublist _)
  have hnd2 : (canonicalOrder.filter (fun k => decide (k ∈ quota.map Prod.fst))).Nodup :=
    hcanonnd.sublist (List.filter_sublist _)
  have hperm2 : List.Perm (canonicalOrder.filter (fun k => decide (k ∈ quota.map Prod.fst)))
      (quota.map Prod.fst) := by
    rw [List.perm_ext_iff_of_nodup hnd2 hnd]
    intro a
    simp only [List.mem_filter, decide_eq_true_eq]
    constructor
    · exact fun h => h.2
    · exact fun h => ⟨hsub a h, h⟩
  exact List.eq_of_perm_of_sorted (hperm1.trans hperm2.symm) hsort1 hsort2

/-- Modelled from the spec's words (§4.2 step 2), to be compared with the
source-derived `quotaStep`: for a class with quota > 0, select the workers of
the remaining pool matching the class, ranked by descending experience level
with ties in original order (stable sort), and move up to `quota[class]` of
them from remaining into assigned. -/
def quotaStepSpec (quota : List (String × Int)) (ar : List Worker × List Worker)
    (lic : String) : List Worker × List Worker :=
  let needed := lookupDict quota lic
  if 0 < needed then
    let taken := (sortByKey negExp (ar.2.filter
      (fun m => matches_license m.fuehrerscheine lic))).take needed.toNat
    (ar.1 ++ taken, taken.foldl (fun r s => r.erase s) ar.2)
  else ar

/-- Modelled from the spec's words (§4.2 step 2), to be compared with the
source-derived `quotaPass`: process the classes in the fixed order "BE", "B",
"none" (restricted to the quota's keys), moving matching workers per class. -/
def quotaPassSpec (candidates : List Worker) (quota : List (String × Int)) :
    List Worker × List Worker :=
  (canonicalOrder.filter (fun k => decide (k ∈ quota.map Prod.fst))).foldl
    (quotaStepSpec quota) ([], candidates)

/-- The source's quota-loop body equals the spec's description of it. -/
theorem quotaStep_eq_spec (quota : List (String × Int)) (ar : List Worker × List Worker)
    (lic : String) : quotaStep quota ar lic = quotaStepSpec quota ar lic := by
  simp only [quotaStep, quotaStepSpec]
  by_cases h : lookupDict quota lic ≤ 0
  · rw [if_pos h, if_neg (by omega)]
  · rw [if_neg h, if_pos (by omega)]
    exact Prod.ext (foldl_moveWorker_fst _ _) (foldl_moveWorker_snd _ _)

/-- Moving a sub-multiset out of a list and keeping the rest is a permutation
of the original list ("moved, not copied"). -/
theorem perm_append_foldl_erase : ∀ (ts l : List Worker), List.Subperm ts l →
    List.Perm (ts ++ ts.foldl (fun r s => r.erase s) l) l
  | [], l, _ => by simp
  | s :: ts, l, h => by
    have hmem : s ∈ l := h.subset (List.mem_cons_self s ts)
    have hsub : List.Subperm ts (l.erase s) := by
      have h2 : List.Subperm (s :: ts) (s :: l.erase s) :=
        h.trans (List.perm_cons_erase hmem).subperm
      exact (List.subperm_cons s).mp h2
    have ih := perm_append_foldl_erase ts (l.erase s) hsub
    simp only [List.cons_append, List.foldl_cons]
    exact (ih.cons s).trans (List.perm_cons_erase hmem).symm

/-- One quota-loop iteration keeps `assigned ++ remaining` a permutation of
what it was: a worker is moved between the two lists, never duplicated. -/
theorem quotaStep_perm (quota : List (String × Int)) (ar : List Worker × List Worker)
    (lic : String) :
    List.Perm ((quotaStep quota ar lic).1 ++ (quotaStep quota ar lic).2) (ar.1 ++ ar.2) := by
  rw [quotaStep_eq_spec]
  simp only [quotaStepSpec]
  split
  · rw [List.append_assoc]
    exact List.Perm.append_left ar.1 (perm_append_foldl_erase _ _ (taken_subperm ar.2 _ _))
  · exact List.Perm.refl _

/-- The quota pass partitions the candidates: `assigned ++ remaining` is a
permutation of the candidate list. -/
theorem quotaPass_perm (candidates : List Worker) (quota : List (String × Int)) :
    List.Perm ((quotaPass candidates quota).1 ++ (quotaPass candidates quota).2) candidates := by
  suffices h : ∀ (lics : List String) (ar : List Worker × List Worker),
      List.Perm ((lics.foldl (quotaStep quota) ar).1 ++ (lics.foldl (quotaStep quota) ar).2)
        (ar.1 ++ ar.2) by
    simpa [quotaPass] using h (licenseOrder quota) ([], candidates)
  intro lics
  induction lics with
  | nil => intro ar; exact List.Perm.refl _
  | cons lic rest ih =>
    intro ar
    rw [List.foldl_cons]
    exact (ih (quotaStep quota ar lic)).trans (quotaStep_perm quota ar lic)

/-- C4: with a valid quota dict over the known classes, the quota pass
processes the classes in the fixed order "BE", "B", "none" (the generic rank
sort of the source reduces to the spec's fixed priority order), behaves
exactly as the spec's per-class selection (matching workers ranked by
descending experience, stable, up to `quota[class]` of them moved from
remaining into assigned), and moves workers without duplicating them. -/
theorem quotaPass_follows_spec (candidates : List Worker) (quota : List (String × Int))
    (hnd : (quota.map Prod.fst).Nodup)
    (hsub : ∀ k ∈ quota.map Prod.fst, k ∈ canonicalOrder) :
    licenseOrder quota =
      canonicalOrder.filter (fun k => decide (k ∈ quota.map Prod.fst)) ∧
    quotaPass candidates quota = quotaPassSpec candidates quota ∧
    List.Perm ((quotaPass candidates quota).1 ++ (quotaPass candidates quota).2) candidates := by
  have horder := licenseOrder_fixed quota hnd hsub
  refine ⟨horder, ?_, quotaPass_perm candidates quota⟩
  have hstep : quotaStep quota = quotaStepSpec quota :=
    funext fun ar => funext fun lic => quotaStep_eq_spec quota ar lic
  rw [quotaPass, quotaPassSpec, horder, hstep]

/-- Witness for C4 at a concrete quota dict and candidate pool. -/
theorem quotaPass_follows_spec_witness :
    licenseOrder [("none", 2), ("B", 1), ("BE", 3)] =
      canonicalOrder.filter
        (fun k => decide (k ∈ ([("none", 2), ("B", 1), ("BE", 3)] :
          List (String × Int)).map Prod.fst)) ∧
    quotaPass [wBE1, wP1] [("none", 2), ("B", 1), ("BE", 3)] =
      quotaPassSpec [wBE1, wP1] [("none", 2), ("B", 1), ("BE", 3)] ∧
    List.Perm ((quotaPass [wBE1, wP1] [("none", 2), ("B", 1), ("BE", 3)]).1 ++
      (quotaPass [wBE1, wP1] [("none", 2), ("B", 1), ("BE", 3)]).2) [wBE1, wP1] :=
  quotaPass_follows_spec [wBE1, wP1] [("none", 2), ("B", 1), ("BE", 3)]
    (by decide) (by decide)

/-! ### C2 (amended): the leader substitution -/

/-- C2 as amended: when `needs_leiter` is set, the roster produced by the
quota and fill passes has nobody at the leadership threshold, and
`effective_required` is at least 1 (an empty roster instead crashes, see
`plan_crash_counterexample`), then: if no leader-eligible unassigned candidate
exists, `assign_to_event` fails with the "no leader" reason; otherwise it
succeeds, the substituted-in worker is the *first* leader-eligible unassigned
candidate in original candidate order (not the most experienced one, see
`leader_pick_not_best_counterexample`), and the resulting roster is the old
roster with one lowest-experience member replaced by that candidate. -/
theorem leader_substitution_spec (candidates : List Worker) (quota : List (String × Int))
    (eff : Int) (heff : 1 ≤ eff) (hfeas : ¬ ((candidates.length : Int) < eff))
    (hmax : maxExp (fillPass eff (quotaPass candidates quota)) < 2) :
    (candidates.filter (fun m => decide (2 ≤ m.erfahrung_level) &&
        !((fillPass eff (quotaPass candidates quota)).contains m)) = [] →
      assign_to_event candidates quota eff true = some (.error .noLeader)) ∧
    (∀ l ls, candidates.filter (fun m => decide (2 ≤ m.erfahrung_level) &&
        !((fillPass eff (quotaPass candidates quota)).contains m)) = l :: ls →
      ∃ r m, assign_to_event candidates quota eff true = some (.ok r) ∧
        m ∈ fillPass eff (quotaPass candidates quota) ∧
        (∀ x ∈ fillPass eff (quotaPass candidates quota),
          m.erfahrung_level ≤ x.erfahrung_level) ∧
        List.Perm r (l :: (fillPass eff (quotaPass candidates quota)).erase m)) := by
  have hge : eff ≤ ((fillPass eff (quotaPass candidates quota)).length : Int) := by
    apply fillPass_length_ge
    rw [quotaPass_length]
    omega
  have hlen : ¬ (((fillPass eff (quotaPass candidates quota)).length : Int) < eff) := by
    omega
  constructor
  · intro hL
    simp only [assign_to_event, if_neg hfeas]
    rw [if_neg hlen, if_pos (by simp [hmax])]
    simp only [hL]
  · intro l ls hL
    have hne : fillPass eff (quotaPass candidates quota) ≠ [] := by
      intro h0
      rw [h0] at hge
      simp at hge
      omega
    obtain ⟨m, rest, hsorteq⟩ :
        ∃ m rest, sortByKey expKey (fillPass eff (quotaPass candidates quota)) = m :: rest := by
      cases hs : sortByKey expKey (fillPass eff (quotaPass candidates quota)) with
      | nil =>
        exfalso
        apply hne
        have hl0 := congrArg List.length hs
        rw [sortByKey_length] at hl0
        exact List.length_eq_zero.mp (by simpa using hl0)
      | cons m rest => exact ⟨m, rest, rfl⟩
    refine ⟨l :: rest, m, ?_, ?_, ?_, ?_⟩
    · simp only [assign_to_event, if_neg hfeas]
      rw [if_neg hlen, if_pos (by simp [hmax])]
      simp only [hL, hsorteq]
    · exact mem_sortByKey.mp (hsorteq ▸ List.mem_cons_self m rest)
    · intro x hx
      have hx2 : x ∈ sortByKey expKey (fillPass eff (quotaPass candidates quota)) :=
        mem_sortByKey.mpr hx
      rw [hsorteq] at hx2
      rcases List.mem_cons.mp hx2 with heq | hx3
      · rw [heq]
      · have hsorted := sortByKey_sorted expKey (fillPass eff (quotaPass candidates quota))
        rw [hsorteq] at hsorted
        exact List.rel_of_sorted_cons hsorted x hx3
    · apply List.Perm.cons
      have hperm2 := (sortByKey_perm expKey (fillPass eff (quotaPass candidates quota))).erase m
      rw [hsorteq] at hperm2
      simpa [List.erase_cons_head] using hperm2

/-- Witness for the amended C2 at the counterexample's input: the substitution
succeeds and swaps in the first eligible leader. -/
theorem leader_substitution_spec_witness :
    ∃ r m, assign_to_event [wL2, wL3, wBE1] [("BE", 1)] 1 true = some (.ok r) ∧
      m ∈ fillPass 1 (quotaPass [wL2, wL3, wBE1] [("BE", 1)]) ∧
      (∀ x ∈ fillPass 1 (quotaPass [wL2, wL3, wBE1] [("BE", 1)]),
        m.erfahrung_level ≤ x.erfahrung_level) ∧
      List.Perm r (wL2 :: (fillPass 1 (quotaPass [wL2, wL3, wBE1] [("BE", 1)])).erase m) :=
  (leader_substitution_spec [wL2, wL3, wBE1] [("BE", 1)] 1 (by decide) (by decide)
    (by decide)).2 wL2 [wL3] (by decide)

/-! ### C3 (amended): totality of the planning pass -/

/-- With `effective_required` at least 1, `assign_to_event` never crashes:
the roster reaching the leader substitution is nonempty. -/
theorem assign_ne_none (candidates : List Worker) (quota : List (String × Int))
    (eff : Int) (nl : Bool) (heff : 1 ≤ eff) :
    assign_to_event candidates quota eff nl ≠ none := by
  by_cases hfeas : (candidates.length : Int) < eff
  · simp [assign_to_event, if_pos hfeas]
  · by_cases hlen : ((fillPass eff (quotaPass candidates quota)).length : Int) < eff
    · simp only [assign_to_event, if_neg hfeas]
      rw [if_pos hlen]
      simp
    · simp only [assign_to_event, if_neg hfeas]
      rw [if_neg hlen]
      split
      · split
        · simp
        · split
          · rename_i hs
            exfalso
            have h0 := congrArg List.length hs
            rw [sortByKey_length] at h0
            simp only [List.length_nil] at h0
            omega
          · simp
      · simp

/-- One planning-loop iteration always records an outcome for its event when
the event requires at least one worker. -/
theorem planStep_some (workers : List Worker)
    (st : (String → List String) × List (Event × Except AssignError (List Worker)))
    (event : Event) (heff : 1 ≤ effReq event) :
    ∃ used2 r, planStep workers st event = some (used2, st.2 ++ [(event, r)]) := by
  simp only [planStep]
  cases hassign : assign_to_event (filterCandidates workers st.1 event.required_dates)
      event.required_fuehrerscheine (effReq event) event.needs_leiter with
  | none => exact absurd hassign (assign_ne_none _ _ _ _ heff)
  | some r =>
    cases r with
    | error err => exact ⟨st.1, .error err, rfl⟩
    | ok assigned => exact ⟨claimDates st.1 assigned event.required_dates, .ok assigned, rfl⟩

/-- The planning fold runs to completion and appends one trace entry per
event, in order. -/
theorem foldlM_planStep_some (workers : List Worker) :
    ∀ (evs : List Event)
      (st : (String → List String) × List (Event × Except AssignError (List Worker))),
      (∀ e ∈ evs, 1 ≤ effReq e) →
      ∃ st2, evs.foldlM (planStep workers) st = some st2 ∧
        st2.2.map Prod.fst = st.2.map Prod.fst ++ evs
  | [], st, _ => ⟨st, rfl, by simp⟩
  | e :: evs, st, h => by
    obtain ⟨used2, r, hstep⟩ := planStep_some workers st e (h e (List.mem_cons_self e evs))
    obtain ⟨st2, hrest, hmap⟩ := foldlM_planStep_some workers evs (used2, st.2 ++ [(e, r)])
      (fun x hx => h x (List.mem_cons_of_mem e hx))
    refine ⟨st2, ?_, ?_⟩
    · rw [List.foldlM_cons, hstep]
      simpa using hrest
    · rw [hmap]
      simp

/-- The planning pass completes and traces every event (in sorted order) when
each event requires at least one worker. -/
theorem runPlan_total (events : List Event) (workers : List Worker)
    (heff : ∀ e ∈ events, 1 ≤ effReq e) :
    ∃ trace, runPlan events workers = some trace ∧
      trace.map Prod.fst = sortedEvents events := by
  obtain ⟨st2, hfold, hmap⟩ := foldlM_planStep_some workers (sortedEvents events)
    ((fun _ => []), []) (fun e he => heff e (mem_sortByKey.mp he))
  refine ⟨st2.2, ?_, by simpa using hmap⟩
  rw [runPlan, hfold]
  rfl

/-- `dictSet` puts its key into the dict and keeps all existing keys. -/
theorem mem_keys_dictSet {V : Type} (d : List (String × V)) (k : String) (v : V) :
    k ∈ (dictSet d k v).map Prod.fst ∧
    ∀ k2, k2 ∈ d.map Prod.fst → k2 ∈ (dictSet d k v).map Prod.fst := by
  unfold dictSet
  by_cases h : d.any (fun p => p.1 == k)
  · rw [if_pos h]
    have hkeys : (d.map (fun p => if p.1 == k then (k, v) else p)).map Prod.fst =
        d.map Prod.fst := by
      rw [List.map_map]
      apply List.map_congr_left
      intro p _
      by_cases hp : p.1 == k
      · simp only [Function.comp_apply, if_pos hp]
        exact (eq_of_beq hp).symm
      · simp only [Function.comp_apply, if_neg hp]
    rw [hkeys]
    refine ⟨?_, fun k2 hk2 => hk2⟩
    obtain ⟨p, hp, hbeq⟩ := List.any_eq_true.mp h
    have : p.1 = k := eq_of_beq hbeq
    rw [← this]
    exact List.mem_map_of_mem Prod.fst hp
  · rw [if_neg h]
    simp only [List.map_append, List.map_cons, List.map_nil]
    exact ⟨List.mem_append_right _ (List.mem_cons_self k []),
      fun k2 hk2 => List.mem_append_left _ hk2⟩

/-- `List.lookup` succeeds on every present key. -/
theorem lookup_isSome_of_mem {V : Type} :
    ∀ (d : List (String × V)) (k : String), k ∈ d.map Prod.fst →
      (List.lookup k d).isSome = true
  | [], _, h => by simp at h
  | (a, b) :: rest, k, h => by
    rw [List.lookup]
    by_cases hk : k == a
    · rw [hk]
      rfl
    · rw [Bool.not_eq_true] at hk
      rw [hk]
      apply lookup_isSome_of_mem rest
      simp only [List.map_cons, List.mem_cons] at h
      rcases h with h | h
      · simp [h] at hk
      · exact h

/-- Every key present in the accumulator survives the plan-dict fold. -/
theorem keys_mono_foldl_dictSet :
    ∀ (trace : List (Event × Except AssignError (List Worker)))
      (acc : List (String × PlanEntry)) (k : String),
      k ∈ acc.map Prod.fst →
      k ∈ ((trace.foldl (fun plan p => dictSet plan p.1.id (entryOf p.2)) acc).map Prod.fst)
  | [], _, _, h => h
  | q :: rest, acc, k, h =>
    keys_mono_foldl_dictSet rest _ k ((mem_keys_dictSet acc q.1.id (entryOf q.2)).2 k h)

/-- Every traced event's id is a key of the final plan dict. -/
theorem mem_keys_foldl_dictSet :
    ∀ (trace : List (Event × Except AssignError (List Worker)))
      (acc : List (String × PlanEntry))
      (p : Event × Except AssignError (List Worker)), p ∈ trace →
      p.1.id ∈ ((trace.foldl (fun plan q => dictSet plan q.1.id (entryOf q.2)) acc).map Prod.fst)
  | q :: rest, acc, p, hp => by
    rcases List.mem_cons.mp hp with heq | hmem
    · rw [heq]
      exact keys_mono_foldl_dictSet rest _ q.1.id
        (mem_keys_dictSet acc q.1.id (entryOf q.2)).1
    · exact mem_keys_foldl_dictSet rest _ p hmem

/-- C3 as amended: whenever every event's `effective_required` is at least 1,
the planning pass runs to completion (never crashes) and the resulting plan
dict records an outcome for every event's id, each failure being a local
per-event entry.  (With an `effective_required` of 0 on an event that needs a
leader the pass can instead crash, see `plan_crash_counterexample`.) -/
theorem plan_total (events : List Event) (workers : List Worker)
    (heff : ∀ e ∈ events, 1 ≤ effReq e) :
    ∃ plan, computePlan events workers = some plan ∧
      ∀ e ∈ events, (List.lookup e.id plan).isSome = true := by
  obtain ⟨trace, htr, hmap⟩ := runPlan_total events workers heff
  refine ⟨trace.foldl (fun plan p => dictSet plan p.1.id (entryOf p.2)) [], ?_, ?_⟩
  · rw [computePlan, htr]
    rfl
  · intro e he
    apply lookup_isSome_of_mem
    have he2 : e ∈ trace.map Prod.fst := by
      rw [hmap]
      exact mem_sortByKey.mpr he
    obtain ⟨p, hp, hpe⟩ := List.mem_map.mp he2
    have := mem_keys_foldl_dictSet trace [] p hp
    rwa [hpe] at this

/-- Witness for the amended C3 at a concrete input. -/
theorem plan_total_witness :
    ∃ plan, computePlan [eA] [wP1] = some plan ∧
      ∀ e ∈ [eA], (List.lookup e.id plan).isSome = true :=
  plan_total [eA] [wP1] (by decide)

/-! ### C7: date exclusivity across the plan -/

/-- One quota-loop iteration keeps both lists inside any superset. -/
theorem quotaStep_subset (quota : List (String × Int)) (ar : List Worker × List Worker)
    (lic : String) (S : List Worker) (h1 : ar.1 ⊆ S) (h2 : ar.2 ⊆ S) :
    (quotaStep quota ar lic).1 ⊆ S ∧ (quotaStep quota ar lic).2 ⊆ S := by
  rw [quotaStep_eq_spec]
  simp only [quotaStepSpec]
  split
  · constructor
    · intro x hx
      rcases List.mem_append.mp hx with hx | hx
      · exact h1 hx
      · have hx2 := List.mem_of_mem_take hx
        have hx3 := mem_sortByKey.mp hx2
        exact h2 (List.mem_of_mem_filter hx3)
    · intro x hx
      exact h2 (foldl_erase_subset _ _ hx)
  · exact ⟨h1, h2⟩

/-- Both results of the quota pass consist of candidates. -/
theorem quotaPass_subset (candidates : List Worker) (quota : List (String × Int)) :
    (quotaPass candidates quota).1 ⊆ candidates ∧
    (quotaPass candidates quota).2 ⊆ candidates := by
  suffices h : ∀ (lics : List String) (ar : List Worker × List Worker),
      ar.1 ⊆ candidates → ar.2 ⊆ candidates →
      (lics.foldl (quotaStep quota) ar).1 ⊆ candidates ∧
      (lics.foldl (quotaStep quota) ar).2 ⊆ candidates by
    exact h (licenseOrder quota) ([], candidates) (by simp) (fun x hx => hx)
  intro lics
  induction lics with
  | nil => intro ar h1 h2; exact ⟨h1, h2⟩
  | cons lic rest ih =>
    intro ar h1 h2
    rw [List.foldl_cons]
    obtain ⟨h1s, h2s⟩ := quotaStep_subset quota ar lic candidates h1 h2
    exact ih _ h1s h2s

/-- The fill pass only adds workers from the remaining pool. -/
theorem fillPass_subset (eff : Int) (ar : List Worker × List Worker) (S : List Worker)
    (h1 : ar.1 ⊆ S) (h2 : ar.2 ⊆ S) : fillPass eff ar ⊆ S := by
  simp only [fillPass]
  split
  · intro x hx
    rcases List.mem_append.mp hx with hx | hx
    · exact h1 hx
    · exact h2 (mem_sortByKey.mp (List.mem_of_mem_take hx))
  · exact h1

/-- Every member of a successful roster comes from the candidate list. -/
theorem assign_ok_subset (candidates : List Worker) (quota : List (String × Int))
    (eff : Int) (nl : Bool) (r : List Worker)
    (h : assign_to_event candidates quota eff nl = some (.ok r)) :
    ∀ w ∈ r, w ∈ candidates := by
  have hfill : fillPass eff (quotaPass candidates quota) ⊆ candidates :=
    fillPass_subset eff _ candidates (quotaPass_subset candidates quota).1
      (quotaPass_subset candidates quota).2
  by_cases hfeas : (candidates.length : Int) < eff
  · rw [assign_to_event, if_pos hfeas] at h
    exact absurd (Option.some.inj h) (by simp)
  · simp only [assign_to_event, if_neg hfeas] at h
    by_cases hlen : ((fillPass eff (quotaPass candidates quota)).length : Int) < eff
    · rw [if_pos hlen] at h
      exact absurd (Option.some.inj h) (by simp)
    · rw [if_neg hlen] at h
      split at h
      · cases hfilter : candidates.filter (fun m =>
            decide (2 ≤ m.erfahrung_level) &&
            !((fillPass eff (quotaPass candidates quota)).contains m)) with
        | nil =>
          rw [hfilter] at h
          exact absurd (Option.some.inj h) (by simp)
        | cons l ls =>
          rw [hfilter] at h
          cases hsort : sortByKey expKey (fillPass eff (quotaPass candidates quota)) with
          | nil =>
            rw [hsort] at h
            exact Option.noConfusion h
          | cons m rest =>
            rw [hsort] at h
            have hok : l :: rest = r := Except.ok.inj (Option.some.inj h)
            intro w hw
            rw [← hok] at hw
            rcases List.mem_cons.mp hw with heq | hmem
            · have hl : l ∈ candidates.filter (fun m =>
                  decide (2 ≤ m.erfahrung_level) &&
                  !((fillPass eff (quotaPass candidates quota)).contains m)) := by
                rw [hfilter]
                exact List.mem_cons_self _ _
              rw [heq]
              exact List.mem_of_mem_filter hl
            · have hw2 : w ∈ sortByKey expKey (fillPass eff (quotaPass candidates quota)) := by
                rw [hsort]
                exact List.mem_cons_of_mem _ hmem
              exact hfill (mem_sortByKey.mp hw2)
      · have hok := Except.ok.inj (Option.some.inj h)
        intro w hw
        rw [← hok] at hw
        exact hfill hw

/-- Candidates passing the date filter belong to the pool and have none of the
required dates claimed. -/
theorem mem_filterCandidates (workers : List Worker) (used : String → List String)
    (dates : List String) (w : Worker) (h : w ∈ filterCandidates workers used dates) :
    w ∈ workers ∧ ∀ d ∈ dates, d ∉ used w.id := by
  rw [filterCandidates, List.mem_filter] at h
  refine ⟨h.1, ?_⟩
  intro d hd
  have hall := List.all_eq_true.mp h.2 d hd
  simpa using hall

/-- Claimed dates only grow. -/
theorem claimDates_mono (used : String → List String) (assigned : List Worker)
    (dates : List String) (i : String) (d : String) (h : d ∈ used i) :
    d ∈ claimDates used assigned dates i := by
  simp only [claimDates]
  split
  · exact List.mem_append_left _ h
  · exact h

/-- After a successful assignment, every required date is claimed for every
assigned worker. -/
theorem claimDates_mem (used : String → List String) (assigned : List Worker)
    (dates : List String) (w : Worker) (hw : w ∈ assigned) (d : String) (hd : d ∈ dates) :
    d ∈ claimDates used assigned dates w.id := by
  simp only [claimDates]
  rw [if_pos (List.any_eq_true.mpr ⟨w, hw, by simp⟩)]
  exact List.mem_append_right _ hd

/-- Two per-event outcomes have rosters with no worker id in common (vacuous
unless both are successes). -/
def rosterDisjoint (r1 r2 : Except AssignError (List Worker)) : Prop :=
  ∀ a1 a2, r1 = .ok a1 → r2 = .ok a2 → ∀ w1 ∈ a1, ∀ w2 ∈ a2, w1.id ≠ w2.id

/-- The C7 property of a pair of trace entries: events sharing a required date
have disjoint successful rosters. -/
def sharedDatesDisjoint (p q : Event × Except AssignError (List Worker)) : Prop :=
  (∃ d, d ∈ p.1.required_dates ∧ d ∈ q.1.required_dates) → rosterDisjoint p.2 q.2

/-- The planning-loop invariant: every successfully traced event has all its
required dates claimed for each of its workers, and the trace so far is
pairwise date-exclusive. -/
def planInv (st : (String → List String) × List (Event × Except AssignError (List Worker))) :
    Prop :=
  (∀ p ∈ st.2, ∀ a, p.2 = .ok a → ∀ w ∈ a, ∀ d ∈ p.1.required_dates, d ∈ st.1 w.id) ∧
  st.2.Pairwise sharedDatesDisjoint

/-- Recording a failure entry preserves the planning invariant. -/
theorem planInv_error
    (st : (String → List String) × List (Event × Except AssignError (List Worker)))
    (hInv : planInv st) (e : Event) (err : AssignError) :
    planInv (st.1, st.2 ++ [(e, .error err)]) := by
  constructor
  · intro p hp a ha
    rcases List.mem_append.mp hp with hp | hp
    · exact hInv.1 p hp a ha
    · have hpe : p = (e, .error err) := List.mem_singleton.mp hp
      rw [hpe] at ha
      exact absurd ha (by simp)
  · rw [List.pairwise_append]
    refine ⟨hInv.2, List.pairwise_singleton _ _, ?_⟩
    intro p _ q hq
    have hqe : q = (e, .error err) := List.mem_singleton.mp hq
    rw [hqe]
    intro _ a1 a2 _ hok
    exact absurd hok (by simp)

/-- Recording a success and claiming its dates preserves the planning
invariant: the new roster passed the date filter, so none of its workers had
any required date claimed, while all previously recorded rosters had theirs
claimed. -/
theorem planInv_ok (workers : List Worker)
    (st : (String → List String) × List (Event × Except AssignError (List Worker)))
    (e : Event) (assigned : List Worker) (hInv : planInv st)
    (hsub : ∀ w ∈ assigned, w ∈ filterCandidates workers st.1 e.required_dates) :
    planInv (claimDates st.1 assigned e.required_dates, st.2 ++ [(e, .ok assigned)]) := by
  constructor
  · intro p hp a ha w hw d hd
    rcases List.mem_append.mp hp with hp | hp
    · exact claimDates_mono _ _ _ _ _ (hInv.1 p hp a ha w hw d hd)
    · have hpe : p = (e, .ok assigned) := List.mem_singleton.mp hp
      rw [hpe] at ha hd
      have haeq : assigned = a := Except.ok.inj ha
      rw [← haeq] at hw
      exact claimDates_mem st.1 assigned e.required_dates w hw d hd
  · rw [List.pairwise_append]
    refine ⟨hInv.2, List.pairwise_singleton _ _, ?_⟩
    intro p hp q hq
    have hqe : q = (e, .ok assigned) := List.mem_singleton.mp hq
    rw [hqe]
    intro hshared a1 a2 hp2 hq2 w1 hw1 w2 hw2
    obtain ⟨d, hd1, hd2⟩ := hshared
    have ha2 : assigned = a2 := Except.ok.inj hq2
    rw [← ha2] at hw2
    have hused1 : d ∈ st.1 w1.id := hInv.1 p hp a1 hp2 w1 hw1 d hd1
    have hfc := mem_filterCandidates workers st.1 e.required_dates w2 (hsub w2 hw2)
    intro hid
    exact hfc.2 d hd2 (hid ▸ hused1)

/-- One planning-loop iteration preserves the invariant. -/
theorem planStep_inv (workers : List Worker)
    (st st2 : (String → List String) × List (Event × Except AssignError (List Worker)))
    (e : Event) (hInv : planInv st) (hstep : planStep workers st e = some st2) :
    planInv st2 := by
  simp only [planStep] at hstep
  cases hassign : assign_to_event (filterCandidates workers st.1 e.required_dates)
      e.required_fuehrerscheine (effReq e) e.needs_leiter with
  | none =>
    rw [hassign] at hstep
    exact absurd hstep (by simp)
  | some r =>
    rw [hassign] at hstep
    cases r with
    | error err =>
      have h2 : (st.1, st.2 ++ [(e, .error err)]) = st2 := Option.some.inj hstep
      rw [← h2]
      exact planInv_error st hInv e err
    | ok assigned =>
      have h2 : (claimDates st.1 assigned e.required_dates, st.2 ++ [(e, .ok assigned)]) = st2 :=
        Option.some.inj hstep
      rw [← h2]
      exact planInv_ok workers st e assigned hInv (assign_ok_subset _ _ _ _ _ hassign)

/-- The planning fold preserves the invariant. -/
theorem foldlM_planStep_inv (workers : List Worker) :
    ∀ (evs : List Event)
      (st st2 : (String → List String) × List (Event × Except AssignError (List Worker))),
      planInv st → evs.foldlM (planStep workers) st = some st2 → planInv st2
  | [], st, st2, hInv, h => by
    simp only [List.foldlM_nil] at h
    exact (Option.some.inj h) ▸ hInv
  | e :: evs, st, st2, hInv, h => by
    rw [List.foldlM_cons] at h
    cases hstep : planStep workers st e with
    | none =>
      rw [hstep] at h
      exact absurd h (by simp)
    | some st1 =>
      rw [hstep] at h
      exact foldlM_planStep_inv workers evs st1 st2
        (planStep_inv workers st st1 e hInv hstep) h

/-- C7: date exclusivity is an invariant of the whole planning pass.  For
every run of the planning loop, any two traced events that share a required
date have successful rosters with no worker id in common: a successful
assignment claims every required date for each assigned worker, and the date
filter excludes claimed workers from every later shared-date event. -/
theorem plan_date_exclusivity (events : List Event) (workers : List Worker)
    (trace : List (Event × Except AssignError (List Worker)))
    (h : runPlan events workers = some trace) :
    trace.Pairwise sharedDatesDisjoint := by
  rw [runPlan] at h
  cases hfold : (sortedEvents events).foldlM (planStep workers) ((fun _ => []), []) with
  | none =>
    rw [hfold] at h
    exact absurd h (by simp)
  | some st2 =>
    rw [hfold] at h
    have hst : st2.2 = trace := by simpa using h
    have hInv := foldlM_planStep_inv workers (sortedEvents events) ((fun _ => []), []) st2
      ⟨by simp, List.Pairwise.nil⟩ hfold
    rw [← hst]
    exact hInv.2

/-- An event on 2024-06-01 needing one worker (first of two). -/
def eC : Event := ⟨"eC", "C", "O", ["2024-06-01"], 1, 0, 0, [], false, "1"⟩

/-- An event on 2024-06-01 needing one worker (second of two). -/
def eD : Event := ⟨"eD", "D", "O", ["2024-06-01"], 1, 0, 0, [], false, "1"⟩

/-- Witness for C7 on a concrete two-event, shared-date run in which both
events succeed with disjoint rosters. -/
theorem plan_date_exclusivity_witness :
    List.Pairwise sharedDatesDisjoint [(eC, Except.ok [wP1]), (eD, Except.ok [wP1b])] :=
  plan_date_exclusivity [eC, eD] [wP1, wP1b]
    [(eC, Except.ok [wP1]), (eD, Except.ok [wP1b])] (by rfl)

/-! ### C9 (amended): per-event monotonicity of scarcity -/

/-- The running maximum only grows. -/
theorem foldl_max_ge_init : ∀ (rest : List Worker) (acc : Int),
    acc ≤ rest.foldl (fun a x => max a x.erfahrung_level) acc
  | [], _ => le_refl _
  | y :: rest, acc =>
    le_trans (le_max_left acc y.erfahrung_level) (foldl_max_ge_init rest _)

/-- The running maximum dominates every member. -/
theorem foldl_max_ge_mem : ∀ (rest : List Worker) (acc : Int) (x : Worker), x ∈ rest →
    x.erfahrung_level ≤ rest.foldl (fun a x => max a x.erfahrung_level) acc
  | y :: rest, acc, x, hx => by
    rcases List.mem_cons.mp hx with heq | hmem
    · rw [heq]
      exact le_trans (le_max_right acc y.erfahrung_level) (foldl_max_ge_init rest _)
    · exact foldl_max_ge_mem rest _ x hmem

/-- Every assigned worker's experience is at most `maxExp` of the roster. -/
theorem le_maxExp_of_mem (l : List Worker) (x : Worker) (hx : x ∈ l) :
    x.erfahrung_level ≤ maxExp l := by
  cases l with
  | nil => simp at hx
  | cons m rest =>
    rcases List.mem_cons.mp hx with heq | hmem
    · rw [heq]
      exact foldl_max_ge_init rest _
    · exact foldl_max_ge_mem rest _ x hmem

/-- The running maximum is the start value or some member's level. -/
theorem foldl_max_attained : ∀ (rest : List Worker) (acc : Int),
    rest.foldl (fun a x => max a x.erfahrung_level) acc = acc ∨
    ∃ x ∈ rest, rest.foldl (fun a x => max a x.erfahrung_level) acc = x.erfahrung_level
  | [], _ => Or.inl rfl
  | y :: rest, acc => by
    rcases foldl_max_attained rest (max acc y.erfahrung_level) with h | ⟨x, hx, h⟩
    · rcases max_choice acc y.erfahrung_level with hm | hm
      · exact Or.inl (by rw [List.foldl_cons, h, hm])
      · exact Or.inr ⟨y, List.mem_cons_self y rest, by rw [List.foldl_cons, h, hm]⟩
    · exact Or.inr ⟨x, List.mem_cons_of_mem y hx, by rw [List.foldl_cons, h]⟩

/-- A nonempty roster attains its `maxExp` at some member. -/
theorem maxExp_attained (l : List Worker) (hne : l ≠ []) :
    ∃ x ∈ l, maxExp l = x.erfahrung_level := by
  cases l with
  | nil => exact absurd rfl hne
  | cons m rest =>
    rcases foldl_max_attained rest m.erfahrung_level with h | ⟨x, hx, h⟩
    · exact ⟨m, List.mem_cons_self m rest, h⟩
    · exact ⟨x, List.mem_cons_of_mem m hx, h⟩

/-- An empty fill-pass result means the quota pass assigned nobody. -/
theorem fillPass_fst_nil (eff : Int) (ar : List Worker × List Worker)
    (h : fillPass eff ar = []) : ar.1 = [] := by
  simp only [fillPass] at h
  split at h
  · exact (List.append_eq_nil.mp h).1
  · exact h

/-- The quota fold only ever appends to `assigned`. -/
theorem foldl_quotaStep_fst_prefix (q : List (String × Int)) :
    ∀ (lics : List String) (ar : List Worker × List Worker),
      ∃ suffix, (lics.foldl (quotaStep q) ar).1 = ar.1 ++ suffix
  | [], ar => ⟨[], by simp⟩
  | lic :: rest, ar => by
    obtain ⟨s2, hs2⟩ := foldl_quotaStep_fst_prefix q rest (quotaStep q ar lic)
    have hstep : ∃ s1, (quotaStep q ar lic).1 = ar.1 ++ s1 := by
      simp only [quotaStep]
      split
      · exact ⟨[], by simp⟩
      · exact ⟨_, foldl_moveWorker_fst _ _⟩
    obtain ⟨s1, hs1⟩ := hstep
    refine ⟨s1 ++ s2, ?_⟩
    rw [List.foldl_cons, hs2, hs1, List.append_assoc]

/-- If the whole quota fold assigned nobody, the pool never changed and every
positive-quota class had no matching worker in the pool. -/
theorem foldl_quotaStep_nil (q : List (String × Int)) :
    ∀ (lics : List String) (ar : List Worker × List Worker),
      (lics.foldl (quotaStep q) ar).1 = ar.1 →
      (lics.foldl (quotaStep q) ar).2 = ar.2 ∧
      ∀ lic ∈ lics, 0 < lookupDict q lic →
        ar.2.filter (fun m => matches_license m.fuehrerscheine lic) = []
  | [], ar, _ => ⟨rfl, by simp⟩
  | lic :: rest, ar, h => by
    rw [List.foldl_cons] at h
    by_cases hneed : lookupDict q lic ≤ 0
    · have har2 : quotaStep q ar lic = ar := by
        simp [quotaStep, if_pos hneed]
      rw [har2] at h
      obtain ⟨h2, h3⟩ := foldl_quotaStep_nil q rest ar h
      refine ⟨?_, ?_⟩
      · rw [List.foldl_cons, har2]
        exact h2
      · intro l2 hl2 hpos
        rcases List.mem_cons.mp hl2 with heq | hmem
        · rw [heq] at hpos
          omega
        · exact h3 l2 hmem hpos
    · have hstep1 : (quotaStep q ar lic).1 = ar.1 ++
          (sortByKey negExp (ar.2.filter (fun m => matches_license m.fuehrerscheine lic))).take
            (lookupDict q lic).toNat := by
        simp only [quotaStep, if_neg hneed]
        exact foldl_moveWorker_fst _ _
      obtain ⟨s, hs⟩ := foldl_quotaStep_fst_prefix q rest (quotaStep q ar lic)
      rw [hstep1] at hs
      have heq := hs.symm.trans h
      have htaken : (sortByKey negExp (ar.2.filter
          (fun m => matches_license m.fuehrerscheine lic))).take (lookupDict q lic).toNat = [] := by
        have hlen := congrArg List.length heq
        simp only [List.length_append] at hlen
        have h0 : ((sortByKey negExp (ar.2.filter
            (fun m => matches_license m.fuehrerscheine lic))).take
              (lookupDict q lic).toNat).length = 0 := by omega
        exact List.length_eq_zero.mp h0
      have hfilter_nil : ar.2.filter (fun m => matches_license m.fuehrerscheine lic) = [] := by
        rcases List.take_eq_nil_iff.mp htaken with h0 | h0
        · omega
        · have hl0 := congrArg List.length h0
          rw [sortByKey_length] at hl0
          exact List.length_eq_zero.mp (by simpa using hl0)
      have har2 : quotaStep q ar lic = ar := by
        simp only [quotaStep, if_neg hneed]
        rw [hfilter_nil, show sortByKey negExp ([] : List Worker) = [] from rfl,
          List.take_nil]
        rfl
      rw [har2] at h
      obtain ⟨h2, h3⟩ := foldl_quotaStep_nil q rest ar h
      refine ⟨?_, ?_⟩
      · rw [List.foldl_cons, har2]
        exact h2
      · intro l2 hl2 hpos
        rcases List.mem_cons.mp hl2 with heq | hmem
        · rw [heq]
          exact hfilter_nil
        · exact h3 l2 hmem hpos

/-- The quota fold does nothing over a pool with no matching worker for any
positive-quota class. -/
theorem foldl_quotaStep_no_matches (q : List (String × Int)) :
    ∀ (lics : List String) (a c2 : List Worker),
      (∀ lic ∈ lics, 0 < lookupDict q lic →
        c2.filter (fun m => matches_license m.fuehrerscheine lic) = []) →
      lics.foldl (quotaStep q) (a, c2) = (a, c2)
  | [], _, _, _ => rfl
  | lic :: rest, a, c2, h => by
    have hstep : quotaStep q (a, c2) lic = (a, c2) := by
      by_cases hneed : lookupDict q lic ≤ 0
      · simp [quotaStep, if_pos hneed]
      · have hf : c2.filter (fun m => matches_license m.fuehrerscheine lic) = [] :=
          h lic (List.mem_cons_self lic rest) (by omega)
        simp only [quotaStep, if_neg hneed]
        rw [hf, show sortByKey negExp ([] : List Worker) = [] from rfl, List.take_nil]
        rfl
    rw [List.foldl_cons, hstep]
    exact foldl_quotaStep_no_matches q rest a c2
      (fun l2 hl2 => h l2 (List.mem_cons_of_mem lic hl2))

/-- C9 as amended: monotonicity of scarcity holds per event with a fixed
candidate list — if `assign_to_event` succeeds on the pool with one worker
removed, it also succeeds on the full pool (equivalently, removing a candidate
never turns a failing `assign_to_event` into a succeeding one).  At the
whole-plan level the original claim fails because an earlier event can fail
after the removal and release its workers to a later event (see
`remove_worker_flips_failure_counterexample`). -/
theorem assign_erase_monotone (candidates : List Worker) (quota : List (String × Int))
    (eff : Int) (nl : Bool) (w : Worker) (r : List Worker)
    (hok : assign_to_event (candidates.erase w) quota eff nl = some (.ok r)) :
    ∃ r2, assign_to_event candidates quota eff nl = some (.ok r2) := by
  by_cases hfeasE : ((candidates.erase w).length : Int) < eff
  · rw [assign_to_event, if_pos hfeasE] at hok
    exact absurd (Option.some.inj hok) (by simp)
  · have hlenE : (candidates.erase w).length ≤ candidates.length :=
      (List.erase_sublist w candidates).length_le
    have hfeas : ¬ ((candidates.length : Int) < eff) := by omega
    have hgeO : eff ≤ ((fillPass eff (quotaPass candidates quota)).length : Int) := by
      apply fillPass_length_ge
      rw [quotaPass_length]
      omega
    have hlenO : ¬ (((fillPass eff (quotaPass candidates quota)).length : Int) < eff) := by
      omega
    have hgeE : eff ≤ ((fillPass eff (quotaPass (candidates.erase w) quota)).length : Int) := by
      apply fillPass_length_ge
      rw [quotaPass_length]
      omega
    have hlenE2 :
        ¬ (((fillPass eff (quotaPass (candidates.erase w) quota)).length : Int) < eff) := by
      omega
    simp only [assign_to_event, if_neg hfeasE] at hok
    rw [if_neg hlenE2] at hok
    simp only [assign_to_event, if_neg hfeas]
    rw [if_neg hlenO]
    cases nl with
    | false =>
      rw [if_neg (by simp)]
      exact ⟨_, rfl⟩
    | true =>
      by_cases hmaxO : maxExp (fillPass eff (quotaPass candidates quota)) < 2
      case neg =>
        rw [if_neg (by simp [hmaxO])]
        exact ⟨_, rfl⟩
      case pos =>
        have hlead : ∃ m, m ∈ candidates.erase w ∧ 2 ≤ m.erfahrung_level := by
          by_cases hmaxE : maxExp (fillPass eff (quotaPass (candidates.erase w) quota)) < 2
          · rw [if_pos (by simp [hmaxE])] at hok
            cases hfilt : (candidates.erase w).filter (fun m =>
                decide (2 ≤ m.erfahrung_level) &&
                !((fillPass eff (quotaPass (candidates.erase w) quota)).contains m)) with
            | nil =>
              rw [hfilt] at hok
              exact absurd (Option.some.inj hok) (by simp)
            | cons l ls =>
              have hlmem : l ∈ (candidates.erase w).filter (fun m =>
                  decide (2 ≤ m.erfahrung_level) &&
                  !((fillPass eff (quotaPass (candidates.erase w) quota)).contains m)) := by
                rw [hfilt]
                exact List.mem_cons_self _ _
              have hp := List.mem_filter.mp hlmem
              have hp2 := hp.2
              rw [Bool.and_eq_true] at hp2
              exact ⟨l, hp.1, of_decide_eq_true hp2.1⟩
          · have h2le : 2 ≤ maxExp (fillPass eff (quotaPass (candidates.erase w) quota)) := by
              omega
            have hEne : fillPass eff (quotaPass (candidates.erase w) quota) ≠ [] := by
              intro h0
              rw [h0] at h2le
              exact absurd h2le (by norm_num [maxExp])
            obtain ⟨x, hx, hxeq⟩ := maxExp_attained _ hEne
            have hsubE : fillPass eff (quotaPass (candidates.erase w) quota) ⊆
                candidates.erase w :=
              fillPass_subset _ _ _ (quotaPass_subset _ _).1 (quotaPass_subset _ _).2
            exact ⟨x, hsubE hx, by omega⟩
        obtain ⟨m, hmE, hm2⟩ := hlead
        have hmC : m ∈ candidates := List.erase_subset w candidates hmE
        have hOne : fillPass eff (quotaPass candidates quota) ≠ [] := by
          intro h0
          have heff0 : eff ≤ 0 := by
            rw [h0] at hgeO
            simpa using hgeO
          have hq1 : (quotaPass candidates quota).1 = [] := fillPass_fst_nil eff _ h0
          simp only [quotaPass] at hq1
          obtain ⟨_, hnomatch⟩ := foldl_quotaStep_nil quota (licenseOrder quota)
            ([], candidates) hq1
          have hnomatchE : ∀ lic ∈ licenseOrder quota, 0 < lookupDict quota lic →
              (candidates.erase w).filter
                (fun m2 => matches_license m2.fuehrerscheine lic) = [] := by
            intro lic hl hpos
            have h1 := hnomatch lic hl hpos
            have hsubf := (List.erase_sublist w candidates).filter
              (fun m2 => matches_license m2.fuehrerscheine lic)
            rw [h1] at hsubf
            exact List.sublist_nil.mp hsubf
          have hqE : quotaPass (candidates.erase w) quota = ([], candidates.erase w) := by
            simp only [quotaPass]
            exact foldl_quotaStep_no_matches quota (licenseOrder quota) [] _ hnomatchE
          have hfe : fillPass eff (quotaPass (candidates.erase w) quota) = [] := by
            rw [hqE]
            simp only [fillPass]
            rw [if_neg (by simp only [List.length_nil, Nat.cast_zero, sub_zero]; omega)]
          rw [hfe] at hok
          rw [if_pos (by decide)] at hok
          cases hfilt2 : (candidates.erase w).filter (fun m2 =>
              decide (2 ≤ m2.erfahrung_level) && !(([] : List Worker).contains m2)) with
          | nil =>
            have hmf : m ∈ (candidates.erase w).filter (fun m2 =>
                decide (2 ≤ m2.erfahrung_level) && !(([] : List Worker).contains m2)) :=
              List.mem_filter.mpr ⟨hmE, by simp [hm2]⟩
            rw [hfilt2] at hmf
            simp at hmf
          | cons l2 ls2 =>
            rw [hfilt2] at hok
            exact Option.noConfusion hok
        have hmnot : m ∉ fillPass eff (quotaPass candidates quota) := by
          intro hmem
          have := le_maxExp_of_mem _ m hmem
          omega
        rw [if_pos (by simp [hmaxO])]
        cases hfiltO : candidates.filter (fun m2 => decide (2 ≤ m2.erfahrung_level) &&
            !((fillPass eff (quotaPass candidates quota)).contains m2)) with
        | nil =>
          exfalso
          have hmf : m ∈ candidates.filter (fun m2 => decide (2 ≤ m2.erfahrung_level) &&
              !((fillPass eff (quotaPass candidates quota)).contains m2)) := by
            apply List.mem_filter.mpr
            refine ⟨hmC, ?_⟩
            simp only [Bool.and_eq_true, decide_eq_true_eq, Bool.not_eq_true']
            exact ⟨hm2, by simpa using hmnot⟩
          rw [hfiltO] at hmf
          simp at hmf
        | cons l2 ls2 =>
          cases hsortO : sortByKey expKey (fillPass eff (quotaPass candidates quota)) with
          | nil =>
            exfalso
            apply hOne
            have hl0 := congrArg List.length hsortO
            rw [sortByKey_length] at hl0
            exact List.length_eq_zero.mp (by simpa using hl0)
          | cons m2 rest2 =>
            exact ⟨l2 :: rest2, by simp only [hfiltO, hsortO]⟩

/-- Witness for the amended C9 at a concrete input. -/
theorem assign_erase_monotone_witness :
    ∃ r2, assign_to_event [wP1, wP1b] [] 1 false = some (.ok r2) :=
  assign_erase_monotone [wP1, wP1b] [] 1 false wP1b [wP1] (by rfl)
